import Mathlib

/-!
Verification of `phrack_cli.py` against its specification.

The source is a single Python file.  Its state is the archive directory
(`ISSUES_DIR`), modelled here as an ordered list of directory entries
(`Store`); a real directory has pairwise-distinct entry names, and
`os.listdir` returns the entries in the directory's own order, so the
directory state determines the listing.  Network access (`requests.get`)
is modelled as an oracle `Net : String -> Nat x String` returning
(status_code, body).  The HTML link-discovery step (BeautifulSoup) is an
external collaborator per the spec; it is modelled as an oracle
`String -> List String` producing the href values of the discovered links.

Python string operations used by the source are embedded over `List Char`:
`str.lower` maps `Char.toLower` over the characters (the source only ever
compares ASCII text), `str.endswith` is the list-suffix test, the `in`
operator on strings is contiguous-substring containment, and
`s.split("/")[-1]` is splitting on '/' and taking the last chunk.
-/

/-- Embeds Python `str.lower()` (character-wise lowering; the repository
only compares ASCII text). -/
def pyLower (s : String) : String := ⟨s.data.map Char.toLower⟩

/-- Embeds Python `s.endswith(suffixStr)`: `suffixStr` is a suffix of `s`. -/
def pyEndsWith (s suffixStr : String) : Bool := decide (suffixStr.data <:+ s.data)

/-- Embeds Python `needle in hay` on strings: contiguous substring test. -/
def pyIn (needle hay : String) : Bool := decide (needle.data <:+: hay.data)

/-- Worker for Python `str.split(sep)` restricted to a one-character
separator: accumulates the current chunk (reversed) in `acc`. -/
def pySplitAux (sep : Char) : List Char → List Char → List (List Char)
  | [], acc => [acc.reverse]
  | c :: cs, acc =>
      if c = sep then acc.reverse :: pySplitAux sep cs []
      else pySplitAux sep cs (c :: acc)

/-- Embeds Python `s.split(sep)` for a one-character separator. -/
def pySplit (s : String) (sep : Char) : List String :=
  (pySplitAux sep s.data []).map (fun l => ⟨l⟩)

/-- One file of the archive directory: its name and its byte content
(decoded as text; the source reads with `errors="ignore"`). -/
structure Entry where
  name : String
  content : String
deriving DecidableEq

/-- The archive directory (`ISSUES_DIR`): an ordered list of entries.
`os.listdir` yields the names in this order. -/
abbrev Store := List Entry

/-- The names visible to `os.listdir(ISSUES_DIR)` / `os.path.exists`. -/
def storeNames (s : Store) : List String := s.map Entry.name

/-- Network oracle for `requests.get`: URL to (status_code, body). -/
abbrev Net := String → Nat × String

/-- `BASE_URL` from the source (line 10). -/
def BASE_URL : String := "http://www.phrack.org/archives/tgz/"

/-- Embeds `link["href"].split("/")[-1]` (line 36): the candidate's
local filename is the last path component of its href. -/
def candFilename (href : String) : String := (pySplit href '/').getLastD ""

/-- Per-candidate outcome of one synchronization pass, mirroring the three
logged outcomes in `download_issues` (lines 40, 47, 49). -/
inductive Outcome where
  | skipped (fn : String)
  | saved (fn : String)
  | failedDl (url : String)
deriving DecidableEq

/-- State threaded through the candidate loop of `download_issues`:
the archive directory plus the observable log of outcomes and the list of
URLs actually passed to `requests.get` inside the loop. -/
structure SyncState where
  store : Store
  outcomes : List Outcome
  fetched : List String
deriving DecidableEq

/-- Embeds one iteration of the candidate loop (lines 32-49):
build `issue_url`, skip unless it ends in `tar.gz`, skip (recorded) if the
target file already exists, otherwise fetch; a 200 response is written to
the store, anything else is recorded as a failed download. -/
def syncStep (net : Net) (st : SyncState) (href : String) : SyncState :=
  let issueUrl := BASE_URL ++ href
  if pyEndsWith issueUrl "tar.gz" = false then st
  else
    let fn := candFilename href
    if (storeNames st.store).contains fn then
      { st with outcomes := st.outcomes ++ [Outcome.skipped fn] }
    else
      let resp := net issueUrl
      let st1 := { st with fetched := st.fetched ++ [issueUrl] }
      if resp.1 = 200 then
        { st1 with store := st1.store ++ [⟨fn, resp.2⟩],
                   outcomes := st1.outcomes ++ [Outcome.saved fn] }
      else
        { st1 with outcomes := st1.outcomes ++ [Outcome.failedDl issueUrl] }

/-- The candidate loop of `download_issues` over a discovered link list,
started on a given archive directory with fresh logs. -/
def syncLoop (net : Net) (links : List String) (s : Store) : SyncState :=
  links.foldl (syncStep net) ⟨s, [], []⟩

/-- The filter condition of line 34 (stated on the href; the code tests
`issue_url.endswith("tar.gz")` where `issue_url = BASE_URL + href`). -/
def passFilter (href : String) : Bool := pyEndsWith (BASE_URL ++ href) "tar.gz"

/-- Whether an outcome is a failed download. -/
def isFailed : Outcome → Bool
  | Outcome.failedDl _ => true
  | _ => false

/-- The archive directory after `k` whole synchronization runs against the
same candidate list (each run starts with fresh logs, as each process
invocation of `--download` does). -/
def syncRuns (net : Net) (links : List String) : Nat → Store → Store
  | 0, s => s
  | k + 1, s => syncRuns net links k (syncLoop net links s).store

/-- Output events printed by the program.  `help` marks the argparse help
text (rendered by the external frontend); `line` is a `print` call. -/
inductive Out where
  | help
  | line (s : String)
deriving DecidableEq

/-- Embeds `download_issues` (lines 16-49) whole: the listing fetch against
`BASE_URL`, the fatal non-200 check, link discovery (external HTML parse,
modelled by the `parseLinks` oracle), and the candidate loop. -/
def download_issues (net : Net) (parseLinks : String → List String)
    (s : Store) : List Out × SyncState :=
  let resp := net BASE_URL
  if resp.1 ≠ 200 then
    ([Out.line "Failed to fetch Phrack issue list."], ⟨s, [], []⟩)
  else
    ([], syncLoop net (parseLinks resp.2) s)

/-- Embeds the listing used by `list_issues`, `search_issues` and the
`--view` branch of `main` (lines 56, 70, 172):
`[f for f in os.listdir(ISSUES_DIR) if f.endswith(".txt")]`. -/
def listTxt (s : Store) : List String :=
  (storeNames s).filter (fun f => pyEndsWith f ".txt")

/-- Embeds `open(os.path.join(ISSUES_DIR, f)).read()`: the content of the
directory entry named `f`, when present.  Every name produced by `listTxt`
is present, so the `none` branch is unreachable from the listing. -/
def readIssue (s : Store) (f : String) : Option String :=
  (s.find? (fun e => e.name == f)).map Entry.content

/-- The per-file test of the search loop (lines 81-84):
`keyword.lower() in f.read().lower()`. -/
def matchesKeyword (s : Store) (kw f : String) : Bool :=
  match readIssue s f with
  | some c => pyIn (pyLower kw) (pyLower c)
  | none => false

/-- The `found_issues` list accumulated by `search_issues` (lines 75-84):
the cataloged filenames whose content matches the keyword, in catalog
order. -/
def foundIssues (s : Store) (kw : String) : List String :=
  (listTxt s).filter (matchesKeyword s kw)

/-- Embeds `list_issues` (lines 52-63): printed output. -/
def list_issues (s : Store) : List Out :=
  let issues := listTxt s
  if issues.isEmpty then
    [Out.line "No issues found. Please download them first."]
  else
    Out.line "\nAvailable Phrack Issues:" ::
      (issues.enum.map (fun p => Out.line (toString (p.1 + 1) ++ ". " ++ p.2)))

/-- Embeds `search_issues` (lines 66-91): printed output. -/
def search_issues (s : Store) (kw : String) : List Out :=
  let issues := listTxt s
  if issues.isEmpty then
    [Out.line "No issues found. Please download them first."]
  else
    let found := foundIssues s kw
    if found.isEmpty then
      [Out.line ("No results found for \x27" ++ kw ++ "\x27.")]
    else
      Out.line ("\nFound keyword \x27" ++ kw ++ "\x27 in the following issues:") ::
        found.map Out.line

/-- Embeds `view_issue` (lines 94-103): print the file's content if it
exists, else an error line. -/
def view_issue (s : Store) (fn : String) : List Out :=
  match readIssue s fn with
  | some c => [Out.line c]
  | none => [Out.line ("Error: " ++ fn ++ " not found.")]

/-- Embeds Python list indexing `l[i]` with its negative-index rule;
`none` stands for `IndexError`. -/
def pyIndex (l : List String) (i : Int) : Option String :=
  let j : Int := if i < 0 then i + (l.length : Int) else i
  if 0 ≤ j then l.get? j.toNat else none

/-- The four argparse values (line 119-139): two `store_true` flags and two
optional valued flags (`None` when absent). -/
structure Args where
  download : Bool
  list : Bool
  search : Option String
  view : Option Int
deriving DecidableEq

/-- Python truthiness of an optional string value: `None` and `""` are
falsy. -/
def truthyOptStr : Option String → Bool
  | none => false
  | some s => !(s == "")

/-- Python truthiness of an optional int value: `None` and `0` are falsy. -/
def truthyOptInt : Option Int → Bool
  | none => false
  | some n => !(n == 0)

/-- Embeds `any(vars(args).values())` (line 144). -/
def anyArgVals (a : Args) : Bool :=
  a.download || a.list || truthyOptStr a.search || truthyOptInt a.view

/-- Embeds `argParse` (lines 106-147) after successful flag parsing:
with no truthy value the help is printed and `None` returned. -/
def argParse (a : Args) : List Out × Option Args :=
  if anyArgVals a = false then ([Out.help], none) else ([], some a)

/-- Embeds `main` (lines 150-181): returns the printed output, the
function's return value (`some 1` on the help path, `none` -- Python
`None` -- otherwise) and the resulting archive directory. -/
def phrackMain (net : Net) (parseLinks : String → List String)
    (s : Store) (a : Args) : List Out × Option Int × Store :=
  let parsed := argParse a
  match parsed.2 with
  | none => (parsed.1, some 1, s)
  | some args =>
    if args.download then
      let d := download_issues net parseLinks s
      (d.1, none, d.2.store)
    else if args.list then
      (list_issues s, none, s)
    else if truthyOptStr args.search then
      (search_issues s (args.search.getD ""), none, s)
    else if truthyOptInt args.view then
      let n := args.view.getD 0
      match pyIndex (listTxt s) (n - 1) with
      | some fn => (view_issue s fn, none, s)
      | none => ([Out.line ("Invalid issue number " ++ toString n ++ ".")], none, s)
    else
      ([Out.line "No action specified. Use --help for available options."], none, s)

/-- Embeds the module entry point (lines 184-185):
`if __name__ == "__main__": main()` calls `main` and discards its return
value, so the interpreter process exits with status 0 whenever `main`
returns (every modelled path returns; no uncaught exception is raised). -/
def scriptRun (net : Net) (parseLinks : String → List String)
    (s : Store) (a : Args) : List Out × Nat :=
  ((phrackMain net parseLinks s a).1, 0)

/-- A network oracle that answers every request with status 200. -/
def netOk : Net := fun url => (200, "body:" ++ url)

/-- A link-list oracle returning no links (unused by the non-download
paths). -/
def noLinks : String → List String := fun _ => []

/-- A two-document catalog used as a concrete test directory. -/
def store2 : Store := [⟨"a.txt", "A"⟩, ⟨"b.txt", "B"⟩]

/-- A one-document catalog whose only file has content "hello". -/
def storeHello : Store := [⟨"a.txt", "hello"⟩]

/-- A catalog holding one document containing the exact substring
"PHRACK". -/
def storePhrack : Store := [⟨"doc.txt", "read the PHRACK zine"⟩]

/-- A network oracle that fails exactly one candidate URL. -/
def netFail : Net :=
  fun url => if url = BASE_URL ++ "bad.tar.gz" then (404, "") else (200, "ok")

/-! ### String lemmas -/

theorem pyEndsWith_iff {s suffixStr : String} :
    pyEndsWith s suffixStr = true ↔ suffixStr.data <:+ s.data := by
  simp [pyEndsWith]

/-- A suffix containing no slash that survives to the right of a slash lies
entirely in the part after that slash. -/
theorem suffix_through_slash :
    ∀ (q : List Char) {h suf : List Char}, '/' ∉ suf →
      suf <:+ q ++ '/' :: h → suf <:+ h := by
  intro q
  induction q with
  | nil =>
      intro h suf hmem hsuf
      rcases List.suffix_cons_iff.mp hsuf with hEq | h2
      · exact absurd (hEq ▸ List.mem_cons_self '/' h) hmem
      · exact h2
  | cons x q ih =>
      intro h suf hmem hsuf
      rcases List.suffix_cons_iff.mp (by simpa using hsuf) with hEq | h2
      · refine absurd ?_ hmem
        rw [hEq]
        exact List.mem_cons_of_mem x (List.mem_append_right q (List.mem_cons_self '/' h))
      · exact ih hmem h2

/-- A suffix no longer than the right part of an append is a suffix of the
right part. -/
theorem suffix_of_append_right :
    ∀ (u : List Char) {t s : List Char}, s.length ≤ t.length →
      s <:+ u ++ t → s <:+ t := by
  intro u
  induction u with
  | nil => intro t s _ h; simpa using h
  | cons x u ih =>
      intro t s hlen hsuf
      rcases List.suffix_cons_iff.mp (by simpa using hsuf) with hEq | h2
      · exfalso
        rw [hEq, List.length_cons, List.length_append] at hlen
        omega
      · exact ih hlen h2

theorem pySplitAux_ne_nil (sep : Char) :
    ∀ (cs acc : List Char), pySplitAux sep cs acc ≠ [] := by
  intro cs
  induction cs with
  | nil => intro acc; simp [pySplitAux]
  | cons c cs ih =>
      intro acc
      by_cases h : c = sep
      · simp [pySplitAux, h]
      · simpa [pySplitAux, h] using ih (c :: acc)

/-- `getLastD` of a non-empty list ignores the default. -/
theorem getLastD_ne_nil {α : Type} {l : List α} (h : l ≠ []) (d₁ d₂ : α) :
    l.getLastD d₁ = l.getLastD d₂ := by
  cases l with
  | nil => exact absurd rfl h
  | cons a l => rw [List.getLastD_cons, List.getLastD_cons]

/-- A slash-free suffix of the split input is a suffix of the last chunk. -/
theorem suffix_last_chunk :
    ∀ (cs acc suf : List Char), '/' ∉ suf →
      suf <:+ acc.reverse ++ cs →
      suf <:+ (pySplitAux '/' cs acc).getLastD [] := by
  intro cs
  induction cs with
  | nil =>
      intro acc suf hmem hsuf
      simpa [pySplitAux] using hsuf
  | cons c cs ih =>
      intro acc suf hmem hsuf
      by_cases hc : c = '/'
      · subst hc
        have h2 : suf <:+ cs := suffix_through_slash acc.reverse hmem hsuf
        have h3 := ih [] suf hmem (by simpa using h2)
        have hne := pySplitAux_ne_nil '/' cs ([] : List Char)
        have hsplit : pySplitAux '/' ('/' :: cs) acc = acc.reverse :: pySplitAux '/' cs [] := by
          simp [pySplitAux]
        rw [hsplit, List.getLastD_cons, getLastD_ne_nil hne acc.reverse []]
        exact h3
      · have hsuf2 : suf <:+ (c :: acc).reverse ++ cs := by
          simpa [List.reverse_cons, List.append_assoc] using hsuf
        have h3 := ih (c :: acc) suf hmem hsuf2
        simpa [pySplitAux, hc] using h3

theorem data_getLastD_map :
    ∀ (l : List (List Char)), l ≠ [] →
      ((l.map (fun c => (⟨c⟩ : String))).getLastD "").data = l.getLastD [] := by
  intro l
  induction l with
  | nil => intro h; exact absurd rfl h
  | cons a l ih =>
      intro _
      cases l with
      | nil => simp
      | cons b l =>
          have hne1 : (List.map (fun c => (⟨c⟩ : String)) (b :: l)) ≠ [] := by simp
          have hne2 : (b :: l : List (List Char)) ≠ [] := by simp
          rw [List.map_cons, List.getLastD_cons,
              getLastD_ne_nil hne1 (⟨a⟩ : String) "",
              List.getLastD_cons, getLastD_ne_nil hne2 a [], ih hne2]

theorem candFilename_data (href : String) :
    (candFilename href).data = (pySplitAux '/' href.data []).getLastD [] := by
  unfold candFilename pySplit
  exact data_getLastD_map _ (pySplitAux_ne_nil '/' href.data [])

/-- A href ending in `tar.gz` has a local filename ending in `tar.gz`. -/
theorem candFilename_endsWith {href : String}
    (h : pyEndsWith href "tar.gz" = true) :
    pyEndsWith (candFilename href) "tar.gz" = true := by
  rw [pyEndsWith_iff] at h ⊢
  rw [candFilename_data]
  exact suffix_last_chunk href.data [] _ (by decide) (by simpa using h)

/-- `BASE_URL` ends in a slash, so `issue_url.endswith("tar.gz")` forces
the href itself to end in `tar.gz`. -/
theorem href_endsWith_of_url {href : String}
    (h : pyEndsWith (BASE_URL ++ href) "tar.gz" = true) :
    pyEndsWith href "tar.gz" = true := by
  rw [pyEndsWith_iff] at h ⊢
  rw [String.data_append] at h
  have hb : BASE_URL.data = "http://www.phrack.org/archives/tgz".data ++ ['/'] := by
    decide
  rw [hb, List.append_assoc] at h
  simp only [List.singleton_append] at h
  exact suffix_through_slash _ (by decide) h

/-- No name ends in both `tar.gz` and `.txt`. -/
theorem tarGz_not_txt {fn : String} (h1 : pyEndsWith fn "tar.gz" = true) :
    pyEndsWith fn ".txt" = false := by
  cases h2 : pyEndsWith fn ".txt"
  · rfl
  · exfalso
    rw [pyEndsWith_iff] at h1 h2
    obtain ⟨u, hu⟩ := h1
    rw [← hu] at h2
    exact absurd (suffix_of_append_right u (by decide) h2) (by decide)

/-! ### Synchronizer lemmas -/

theorem contains_iff_mem {l : List String} {a : String} :
    l.contains a = true ↔ a ∈ l := by
  simp

/-- Each loop iteration only appends to the outcome and fetch logs; the
resulting store depends on the incoming store alone. -/
theorem syncStep_factor (net : Net) (href : String) (st : SyncState) :
    syncStep net st href =
      ⟨(syncStep net ⟨st.store, [], []⟩ href).store,
       st.outcomes ++ (syncStep net ⟨st.store, [], []⟩ href).outcomes,
       st.fetched ++ (syncStep net ⟨st.store, [], []⟩ href).fetched⟩ := by
  simp only [syncStep]
  split_ifs with h1 h2 h3 <;> simp

/-- The loop started from an arbitrary state factors through the loop
started with fresh logs on the same store. -/
theorem syncLoop_factor (net : Net) :
    ∀ (links : List String) (st : SyncState),
      List.foldl (syncStep net) st links =
        ⟨(syncLoop net links st.store).store,
         st.outcomes ++ (syncLoop net links st.store).outcomes,
         st.fetched ++ (syncLoop net links st.store).fetched⟩ := by
  intro links
  induction links with
  | nil => intro st; simp [syncLoop]
  | cons href rest ih =>
      intro st
      have hL : syncLoop net (href :: rest) st.store =
          List.foldl (syncStep net) (syncStep net ⟨st.store, [], []⟩ href) rest := rfl
      have h1 := ih (syncStep net st href)
      have h2 := ih (syncStep net ⟨st.store, [], []⟩ href)
      have hstep := syncStep_factor net href st
      show List.foldl (syncStep net) (syncStep net st href) rest = _
      rw [h1, hstep, hL, h2]
      simp [List.append_assoc]

/-- The store only grows across loop iterations. -/
theorem syncFold_store_mono (net : Net) :
    ∀ (links : List String) (st : SyncState) {fn : String},
      fn ∈ storeNames st.store →
      fn ∈ storeNames (List.foldl (syncStep net) st links).store := by
  intro links
  induction links with
  | nil => intro st fn h; exact h
  | cons href rest ih =>
      intro st fn h
      refine ih (syncStep net st href) ?_
      simp only [syncStep]
      split_ifs with h1 h2 h3
      · exact h
      · exact h
      · simp only [storeNames, List.map_append]
        exact List.mem_append_left _ h
      · exact h

/-- A candidate whose URL fails the `tar.gz` filter leaves the loop state
untouched (line 34-35). -/
theorem syncStep_filtered (net : Net) (st : SyncState) {href : String}
    (hp : passFilter href = false) : syncStep net st href = st := by
  unfold passFilter at hp
  simp [syncStep, hp]

/-- A candidate whose file already exists is recorded as skipped and
nothing else happens (lines 39-41). -/
theorem syncStep_skip (net : Net) (st : SyncState) {href : String}
    (hp : passFilter href = true)
    (hc : (storeNames st.store).contains (candFilename href) = true) :
    syncStep net st href =
      { st with outcomes := st.outcomes ++ [Outcome.skipped (candFilename href)] } := by
  unfold passFilter at hp
  have hm : candFilename href ∈ storeNames st.store := contains_iff_mem.mp hc
  simp [syncStep, hp, hm]

/-- A missing candidate whose fetch succeeds is written and recorded as
saved (lines 43-47). -/
theorem syncStep_save (net : Net) (st : SyncState) {href : String}
    (hp : passFilter href = true)
    (hc : (storeNames st.store).contains (candFilename href) = false)
    (h200 : (net (BASE_URL ++ href)).1 = 200) :
    syncStep net st href =
      ⟨st.store ++ [⟨candFilename href, (net (BASE_URL ++ href)).2⟩],
       st.outcomes ++ [Outcome.saved (candFilename href)],
       st.fetched ++ [BASE_URL ++ href]⟩ := by
  unfold passFilter at hp
  have hm : candFilename href ∉ storeNames st.store := by
    intro h
    rw [contains_iff_mem.mpr h] at hc
    exact absurd hc (by decide)
  simp [syncStep, hp, hm, h200]

/-- A missing candidate whose fetch fails is recorded as failed; the store
is untouched (lines 48-49). -/
theorem syncStep_fail (net : Net) (st : SyncState) {href : String}
    (hp : passFilter href = true)
    (hc : (storeNames st.store).contains (candFilename href) = false)
    (hnot : (net (BASE_URL ++ href)).1 ≠ 200) :
    syncStep net st href =
      ⟨st.store,
       st.outcomes ++ [Outcome.failedDl (BASE_URL ++ href)],
       st.fetched ++ [BASE_URL ++ href]⟩ := by
  unfold passFilter at hp
  have hm : candFilename href ∉ storeNames st.store := by
    intro h
    rw [contains_iff_mem.mpr h] at hc
    exact absurd hc (by decide)
  simp [syncStep, hp, hm, hnot]

/-- Unfolding one candidate off the front of the loop. -/
theorem syncLoop_cons (net : Net) (href : String) (rest : List String) (s : Store) :
    syncLoop net (href :: rest) s =
      ⟨(syncLoop net rest (syncStep net ⟨s, [], []⟩ href).store).store,
       (syncStep net ⟨s, [], []⟩ href).outcomes ++
         (syncLoop net rest (syncStep net ⟨s, [], []⟩ href).store).outcomes,
       (syncStep net ⟨s, [], []⟩ href).fetched ++
         (syncLoop net rest (syncStep net ⟨s, [], []⟩ href).store).fetched⟩ := by
  show List.foldl (syncStep net) (syncStep net ⟨s, [], []⟩ href) rest = _
  rw [syncLoop_factor net rest (syncStep net ⟨s, [], []⟩ href)]

/-- One loop iteration preserves distinctness of the stored names: a write
only happens after the existence check fails. -/
theorem syncStep_nodup (net : Net) (st : SyncState) (href : String)
    (h : (storeNames st.store).Nodup) :
    (storeNames (syncStep net st href).store).Nodup := by
  simp only [syncStep]
  split_ifs with h1 h2 h3
  · exact h
  · exact h
  · simp only [storeNames, List.map_append, List.map_cons, List.map_nil]
    refine List.Nodup.append h (List.nodup_singleton _) ?_
    intro x hx hx2
    rw [List.mem_singleton] at hx2
    subst hx2
    exact h2 (contains_iff_mem.mpr hx)
  · exact h

theorem syncFold_nodup (net : Net) :
    ∀ (links : List String) (st : SyncState),
      (storeNames st.store).Nodup →
      (storeNames (List.foldl (syncStep net) st links).store).Nodup := by
  intro links
  induction links with
  | nil => intro st h; exact h
  | cons href rest ih =>
      intro st h
      exact ih (syncStep net st href) (syncStep_nodup net st href h)

/-- After a run in which no candidate fetch failed, every candidate that
passes the filter has its file present in the resulting store. -/
theorem syncLoop_no_fail_present (net : Net) :
    ∀ (links : List String) (s : Store),
      (∀ o ∈ (syncLoop net links s).outcomes, isFailed o = false) →
      ∀ href ∈ links, passFilter href = true →
        candFilename href ∈ storeNames (syncLoop net links s).store := by
  intro links
  induction links with
  | nil => intro s _ href hmem; simp at hmem
  | cons h0 rest ih =>
      intro s hnf href hmem hp
      rcases List.mem_cons.mp hmem with hEq | hmemr
      · subst hEq
        simp only [syncLoop_cons] at hnf ⊢
        by_cases h2 : (storeNames s).contains (candFilename href) = true
        · rw [syncStep_skip net ⟨s, [], []⟩ hp h2] at hnf ⊢
          exact syncFold_store_mono net rest ⟨s, [], []⟩ (contains_iff_mem.mp h2)
        · have h2f : (storeNames s).contains (candFilename href) = false := by
            simpa using h2
          by_cases h3 : (net (BASE_URL ++ href)).1 = 200
          · rw [syncStep_save net ⟨s, [], []⟩ hp h2f h3] at hnf ⊢
            refine syncFold_store_mono net rest _ ?_
            simp [storeNames]
          · rw [syncStep_fail net ⟨s, [], []⟩ hp h2f h3] at hnf
            have hcontra := hnf (Outcome.failedDl (BASE_URL ++ href)) (by simp)
            simp [isFailed] at hcontra
      · simp only [syncLoop_cons] at hnf ⊢
        refine ih (syncStep net ⟨s, [], []⟩ h0).store ?_ href hmemr hp
        intro o ho
        exact hnf o (List.mem_append_right _ ho)

/-- If every filtered candidate's file is already present, a run performs
no fetch, writes nothing, and records exactly one skip per filtered
candidate, in candidate order. -/
theorem syncLoop_all_present (net : Net) :
    ∀ (links : List String) (s : Store),
      (∀ href ∈ links, passFilter href = true → candFilename href ∈ storeNames s) →
      syncLoop net links s =
        ⟨s, (links.filter passFilter).map
              (fun href => Outcome.skipped (candFilename href)), []⟩ := by
  intro links
  induction links with
  | nil => intro s _; rfl
  | cons h0 rest ih =>
      intro s h
      have ihr := ih s (fun href hm hp2 => h href (List.mem_cons_of_mem _ hm) hp2)
      by_cases hp : passFilter h0 = true
      · have hc : (storeNames s).contains (candFilename h0) = true :=
          contains_iff_mem.mpr (h h0 (List.mem_cons_self _ _) hp)
        rw [syncLoop_cons, syncStep_skip net ⟨s, [], []⟩ hp hc]
        simp [ihr, List.filter_cons, hp]
      · have hpf : passFilter h0 = false := by simpa using hp
        have hL : syncLoop net (h0 :: rest) s = syncLoop net rest s := by
          show List.foldl (syncStep net) (syncStep net ⟨s, [], []⟩ h0) rest = _
          rw [syncStep_filtered net ⟨s, [], []⟩ hpf]
          rfl
        rw [hL, ihr]
        simp [List.filter_cons, hpf]

/-! ### Catalog / search lemmas -/

/-- Any name produced by the directory listing can be opened: `find?` on
the entry list succeeds. -/
theorem find?_name_mem {s : Store} {f : String} (h : f ∈ storeNames s) :
    ∃ e, s.find? (fun x => x.name == f) = some e := by
  induction s with
  | nil => simp [storeNames] at h
  | cons a t ih =>
      by_cases ha : a.name == f
      · exact ⟨a, List.find?_cons_of_pos _ ha⟩
      · have hf : f ∈ storeNames t := by
          simp only [storeNames, List.map_cons, List.mem_cons] at h
          rcases h with h | h
          · exact absurd (by simp [h]) ha
          · exact h
        obtain ⟨e, he⟩ := ih hf
        have hb : (a.name == f) = false := by simpa using ha
        refine ⟨e, ?_⟩
        simp only [List.find?_cons, hb]
        exact he

/-- In a directory with pairwise-distinct names, opening an entry's name
reads that very entry. -/
theorem find?_name_unique {s : Store} {e : Entry}
    (hnd : (storeNames s).Nodup) (he : e ∈ s) :
    s.find? (fun x => x.name == e.name) = some e := by
  induction s with
  | nil => simp at he
  | cons a t ih =>
      have hnd2 : (a.name :: storeNames t).Nodup := hnd
      rcases List.nodup_cons.mp hnd2 with ⟨hna, hndt⟩
      rcases List.mem_cons.mp he with hEq | het
      · subst hEq
        exact List.find?_cons_of_pos _ (by simp)
      · have hne : (a.name == e.name) = false := by
          refine beq_eq_false_iff_ne.mpr ?_
          intro hEq
          exact hna (by rw [hEq]; exact List.mem_map_of_mem Entry.name het)
        simp only [List.find?_cons, hne]
        exact ih hndt het

/-- The empty keyword is a substring of every content. -/
theorem pyIn_nil (hay : String) : pyIn "" hay = true := by
  simp only [pyIn, decide_eq_true_eq]
  exact ⟨[], hay.data, rfl⟩

/-- Every cataloged document matches the empty keyword. -/
theorem matchesKeyword_nil {s : Store} {f : String} (h : f ∈ storeNames s) :
    matchesKeyword s "" f = true := by
  obtain ⟨e, he⟩ := find?_name_mem h
  have : pyLower "" = "" := rfl
  simp [matchesKeyword, readIssue, he, this, pyIn_nil]

/-! ### Claim theorems -/

/-- C5: invoked with no flags, the program prints the usage/help text and
the process exits without a process-level error: `argParse` prints the
help and returns `None`, `main` returns 1, and the bare `main()` call at
line 185 discards that value, so the interpreter exits 0. -/
theorem c5_no_flags_prints_help_exits_ok (net : Net)
    (parseLinks : String → List String) (s : Store) :
    scriptRun net parseLinks s ⟨false, false, none, none⟩ = ([Out.help], 0) := rfl

/-- C9: catalog enumeration is a function of the directory state alone, so
two successive enumerations with no intervening change to the archive
directory (`s2 = s`) return the same name sequence, with the same filename
at every ordinal position. -/
theorem c9_enumeration_stable (s s2 : Store) (h : s2 = s) :
    listTxt s2 = listTxt s ∧
      ∀ i : Nat, (listTxt s2).get? i = (listTxt s).get? i := by
  subst h
  exact ⟨rfl, fun _ => rfl⟩

theorem c9_enumeration_stable_witness :
    listTxt store2 = listTxt store2 ∧
      ∀ i : Nat, (listTxt store2).get? i = (listTxt store2).get? i :=
  c9_enumeration_stable store2 store2 rfl

/-- C2 counterexample: with a single cataloged document `a.txt` whose
content is "hello", searching the empty keyword returns `["a.txt"]`, not
the empty set -- `"" in content` holds for every document. -/
theorem c2_empty_keyword_counterexample :
    foundIssues storeHello "" = ["a.txt"] ∧ foundIssues storeHello "" ≠ [] := by
  constructor
  · decide
  · decide

/-- C2 amended: search with the empty keyword returns all cataloged
filenames (the empty keyword matches every document, even an empty one);
an empty catalog therefore yields the empty set.  The CLI never reaches
`search_issues` with an empty keyword: an empty `--search` value is falsy,
so the dispatcher prints the help instead. -/
theorem c2_empty_keyword_matches_all (s : Store) (net : Net)
    (parseLinks : String → List String) :
    foundIssues s "" = listTxt s ∧
      (scriptRun net parseLinks s ⟨false, false, some "", none⟩).1 = [Out.help] := by
  constructor
  · refine List.filter_eq_self.mpr ?_
    intro f hf
    exact matchesKeyword_nil (List.mem_of_mem_filter hf)
  · rfl

/-- C1 (code-bug evaluation): with a two-document catalog, `--view 0`
prints the argparse help (0 is falsy, so neither the view branch nor the
dispatcher is reached), `--view -1` displays the content of the first
document (Python negative indexing), and only `--view 3` (= count+1)
produces the invalid-issue-number report.  The spec requires the
invalid-number report for every ordinal below 1 as well. -/
theorem c1_view_out_of_range_bug :
    (scriptRun netOk noLinks store2 ⟨false, false, none, some 0⟩).1 = [Out.help] ∧
    (scriptRun netOk noLinks store2 ⟨false, false, none, some (-1)⟩).1 = [Out.line "A"] ∧
    (scriptRun netOk noLinks store2 ⟨false, false, none, some 3⟩).1 =
      [Out.line "Invalid issue number 3."] := by
  refine ⟨rfl, ?_, ?_⟩ <;> decide

/-- C3: over a directory with pairwise-distinct entry names, search with a
non-empty keyword returns exactly the cataloged filenames whose
case-folded content contains the case-folded keyword; consequently a
keyword contained in no document yields the empty result set. -/
theorem c3_search_characterization (s : Store) (kw : String)
    (_hkw : kw ≠ "") (hnd : (storeNames s).Nodup) :
    (∀ f, f ∈ foundIssues s kw ↔
      ∃ e, e ∈ s ∧ e.name = f ∧ pyEndsWith f ".txt" = true ∧
        pyIn (pyLower kw) (pyLower e.content) = true) ∧
    ((∀ e ∈ s, pyIn (pyLower kw) (pyLower e.content) = false) →
      foundIssues s kw = []) := by
  have hmain : ∀ f, f ∈ foundIssues s kw ↔
      ∃ e, e ∈ s ∧ e.name = f ∧ pyEndsWith f ".txt" = true ∧
        pyIn (pyLower kw) (pyLower e.content) = true := by
    intro f
    constructor
    · intro hmem
      rcases List.mem_filter.mp hmem with ⟨hl, hm⟩
      rcases List.mem_filter.mp hl with ⟨hn, hext⟩
      cases hfind : s.find? (fun x => x.name == f) with
      | none => rw [matchesKeyword, readIssue, hfind] at hm; cases hm
      | some e =>
          have he : e ∈ s := List.mem_of_find?_eq_some hfind
          have hname : e.name = f := by
            have := List.find?_some hfind
            simpa using this
          rw [matchesKeyword, readIssue, hfind] at hm
          exact ⟨e, he, hname, hext, hm⟩
    · rintro ⟨e, he, hname, hext, hpy⟩
      refine List.mem_filter.mpr ⟨?_, ?_⟩
      · exact List.mem_filter.mpr ⟨List.mem_map.mpr ⟨e, he, hname⟩, hext⟩
      · subst hname
        rw [matchesKeyword, readIssue, find?_name_unique hnd he]
        exact hpy
  refine ⟨hmain, ?_⟩
  intro hnone
  refine List.eq_nil_iff_forall_not_mem.mpr ?_
  intro f hf
  rcases (hmain f).mp hf with ⟨e, he, _, _, hpy⟩
  rw [hnone e he] at hpy
  cases hpy

theorem c3_search_characterization_witness :
    "doc.txt" ∈ foundIssues storePhrack "phrack" :=
  ((c3_search_characterization storePhrack "phrack" (by decide) (by decide)).1
      "doc.txt").mpr
    ⟨⟨"doc.txt", "read the PHRACK zine"⟩, by decide, rfl, by decide, by decide⟩

/-- C6: a candidate whose local filename does not end in `tar.gz` is a
complete no-op for the synchronization pass: the run over any candidate
list containing it is identical -- store, report and fetch log -- to the
run over the list with that candidate removed, so its URL is never
fetched, no file is written for it and it is not counted. -/
theorem c6_filter_nonmatching_noop (net : Net) (s : Store)
    (l1 l2 : List String) (href : String)
    (h : pyEndsWith (candFilename href) "tar.gz" = false) :
    syncLoop net (l1 ++ href :: l2) s = syncLoop net (l1 ++ l2) s := by
  have hp : passFilter href = false := by
    cases hu : passFilter href
    · rfl
    · exact absurd (candFilename_endsWith (href_endsWith_of_url hu)) (by simp [h])
  show List.foldl (syncStep net) ⟨s, [], []⟩ (l1 ++ href :: l2) = _
  rw [List.foldl_append, List.foldl_cons, syncStep_filtered net _ hp,
      ← List.foldl_append]
  rfl

theorem c6_filter_nonmatching_noop_witness :
    pyEndsWith (candFilename "index.html") "tar.gz" = false ∧
      syncLoop netOk (["a.tar.gz"] ++ "index.html" :: ["b.tar.gz"]) [] =
        syncLoop netOk (["a.tar.gz"] ++ ["b.tar.gz"]) [] :=
  ⟨by decide,
   c6_filter_nonmatching_noop netOk [] ["a.tar.gz"] ["b.tar.gz"] "index.html"
     (by decide)⟩

/-- C7: a candidate whose fetch returns a non-success status is recorded
as failed without aborting: the loop writes nothing for it, its URL is
still logged as fetched, the store passed on to the remaining candidates
is unchanged, and every later candidate is processed exactly as it would
be without the failure. -/
theorem c7_fetch_failure_isolated (net : Net) (s : Store)
    (l1 l2 : List String) (href : String)
    (hp : passFilter href = true)
    (hc : (storeNames (syncLoop net l1 s).store).contains (candFilename href) = false)
    (hfail : (net (BASE_URL ++ href)).1 ≠ 200) :
    syncLoop net (l1 ++ href :: l2) s =
      ⟨(syncLoop net l2 (syncLoop net l1 s).store).store,
       (syncLoop net l1 s).outcomes ++ Outcome.failedDl (BASE_URL ++ href) ::
         (syncLoop net l2 (syncLoop net l1 s).store).outcomes,
       (syncLoop net l1 s).fetched ++ (BASE_URL ++ href) ::
         (syncLoop net l2 (syncLoop net l1 s).store).fetched⟩ := by
  have h1 : syncLoop net (l1 ++ href :: l2) s =
      List.foldl (syncStep net) (syncStep net (syncLoop net l1 s) href) l2 := by
    simp only [syncLoop, List.foldl_append, List.foldl_cons]
  rw [h1, syncStep_fail net (syncLoop net l1 s) hp hc hfail,
      syncLoop_factor net l2 _]
  simp [syncLoop, List.append_assoc]

theorem c7_fetch_failure_isolated_witness :
    passFilter "bad.tar.gz" = true ∧
    (storeNames (syncLoop netFail ["a.tar.gz"] []).store).contains
        (candFilename "bad.tar.gz") = false ∧
    (netFail (BASE_URL ++ "bad.tar.gz")).1 ≠ 200 ∧
    syncLoop netFail (["a.tar.gz"] ++ "bad.tar.gz" :: ["c.tar.gz"]) [] =
      ⟨(syncLoop netFail ["c.tar.gz"] (syncLoop netFail ["a.tar.gz"] []).store).store,
       (syncLoop netFail ["a.tar.gz"] []).outcomes ++
         Outcome.failedDl (BASE_URL ++ "bad.tar.gz") ::
           (syncLoop netFail ["c.tar.gz"] (syncLoop netFail ["a.tar.gz"] []).store).outcomes,
       (syncLoop netFail ["a.tar.gz"] []).fetched ++ (BASE_URL ++ "bad.tar.gz") ::
         (syncLoop netFail ["c.tar.gz"] (syncLoop netFail ["a.tar.gz"] []).store).fetched⟩ :=
  ⟨by decide, by decide, by decide,
   c7_fetch_failure_isolated netFail [] ["a.tar.gz"] ["c.tar.gz"] "bad.tar.gz"
     (by decide) (by decide) (by decide)⟩

/-- C4: sync is idempotent.  (a) A candidate whose file already exists in
the starting store contributes exactly one skipped record and no fetch:
the run decomposes into the surrounding runs with a pure log append in
between.  (b) After a complete first run (one with no failed fetch), a
second run against the unchanged candidate list performs zero fetches and
records every filtered candidate as skipped, in order. -/
theorem c4_sync_idempotent (net : Net) (s : Store) :
    (∀ (l1 l2 : List String) (href : String),
      passFilter href = true →
      candFilename href ∈ storeNames s →
      syncLoop net (l1 ++ href :: l2) s =
        ⟨(syncLoop net l2 (syncLoop net l1 s).store).store,
         (syncLoop net l1 s).outcomes ++ Outcome.skipped (candFilename href) ::
           (syncLoop net l2 (syncLoop net l1 s).store).outcomes,
         (syncLoop net l1 s).fetched ++
           (syncLoop net l2 (syncLoop net l1 s).store).fetched⟩) ∧
    (∀ links : List String,
      (∀ o ∈ (syncLoop net links s).outcomes, isFailed o = false) →
      (syncLoop net links (syncLoop net links s).store).fetched = [] ∧
      (syncLoop net links (syncLoop net links s).store).outcomes =
        (links.filter passFilter).map
          (fun href => Outcome.skipped (candFilename href))) := by
  constructor
  · intro l1 l2 href hp hmem
    have hc : (storeNames (syncLoop net l1 s).store).contains
        (candFilename href) = true :=
      contains_iff_mem.mpr (syncFold_store_mono net l1 ⟨s, [], []⟩ hmem)
    have h1 : syncLoop net (l1 ++ href :: l2) s =
        List.foldl (syncStep net) (syncStep net (syncLoop net l1 s) href) l2 := by
      simp only [syncLoop, List.foldl_append, List.foldl_cons]
    rw [h1, syncStep_skip net (syncLoop net l1 s) hp hc, syncLoop_factor net l2 _]
    simp [syncLoop, List.append_assoc]
  · intro links hnf
    have hpresent : ∀ href ∈ links, passFilter href = true →
        candFilename href ∈ storeNames (syncLoop net links s).store :=
      syncLoop_no_fail_present net links s hnf
    rw [syncLoop_all_present net links (syncLoop net links s).store hpresent]
    exact ⟨rfl, rfl⟩

theorem c4_sync_idempotent_witness :
    (syncLoop netOk ["a.tar.gz"] [⟨"a.tar.gz", "X"⟩] =
      ⟨[⟨"a.tar.gz", "X"⟩], [Outcome.skipped "a.tar.gz"], []⟩) ∧
    (syncLoop netOk ["a.tar.gz", "sub/b.tar.gz"]
        (syncLoop netOk ["a.tar.gz", "sub/b.tar.gz"] []).store).fetched = [] ∧
    (syncLoop netOk ["a.tar.gz", "sub/b.tar.gz"]
        (syncLoop netOk ["a.tar.gz", "sub/b.tar.gz"] []).store).outcomes =
      [Outcome.skipped "a.tar.gz", Outcome.skipped "b.tar.gz"] :=
  ⟨(c4_sync_idempotent netOk [⟨"a.tar.gz", "X"⟩]).1 [] [] "a.tar.gz"
     (by decide) (by decide),
   ((c4_sync_idempotent netOk []).2 ["a.tar.gz", "sub/b.tar.gz"] (by decide)).1,
   by
     have h := ((c4_sync_idempotent netOk []).2 ["a.tar.gz", "sub/b.tar.gz"]
       (by decide)).2
     rw [h]
     decide⟩

/-- C8: with distinct initial names, any number of sync runs leaves the
store with pairwise-distinct names -- every filename occurs in exactly one
store entry -- because a write only happens when the existence check
fails. -/
theorem c8_no_duplicate_writes (net : Net) (links : List String) (s : Store)
    (_hlinks : ((links.filter passFilter).map candFilename).Nodup)
    (hnd : (storeNames s).Nodup) :
    ∀ k : Nat, (storeNames (syncRuns net links k s)).Nodup ∧
      ∀ fn ∈ storeNames (syncRuns net links k s),
        (storeNames (syncRuns net links k s)).count fn = 1 := by
  intro k
  induction k generalizing s with
  | zero =>
      refine ⟨hnd, ?_⟩
      intro fn hfn
      exact List.count_eq_one_of_mem hnd hfn
  | succ k ih =>
      exact ih (syncLoop net links s).store (syncFold_nodup net links ⟨s, [], []⟩ hnd)

theorem c8_no_duplicate_writes_witness :
    ((["a.tar.gz", "sub/b.tar.gz"].filter passFilter).map candFilename).Nodup ∧
    (storeNames ([] : Store)).Nodup ∧
    ((storeNames (syncRuns netOk ["a.tar.gz", "sub/b.tar.gz"] 2 [])).Nodup ∧
      ∀ fn ∈ storeNames (syncRuns netOk ["a.tar.gz", "sub/b.tar.gz"] 2 []),
        (storeNames (syncRuns netOk ["a.tar.gz", "sub/b.tar.gz"] 2 [])).count fn = 1) :=
  ⟨by decide, by decide,
   c8_no_duplicate_writes netOk ["a.tar.gz", "sub/b.tar.gz"] []
     (by decide) (by decide) 2⟩

/-- Every name present after the loop was either present before or ends in
`tar.gz` (only filtered candidates are ever written). -/
theorem syncFold_new_name_tarGz (net : Net) :
    ∀ (links : List String) (st : SyncState) {fn : String},
      fn ∈ storeNames (List.foldl (syncStep net) st links).store →
      fn ∈ storeNames st.store ∨ pyEndsWith fn "tar.gz" = true := by
  intro links
  induction links with
  | nil => intro st fn h; exact Or.inl h
  | cons href rest ih =>
      intro st fn h
      rcases ih (syncStep net st href) h with h2 | h2
      · revert h2
        simp only [syncStep]
        split_ifs with h1 hctn h200
        · exact fun h2 => Or.inl h2
        · exact fun h2 => Or.inl h2
        · intro h2
          simp only [storeNames, List.map_append, List.map_cons, List.map_nil,
            List.mem_append, List.mem_singleton] at h2
          rcases h2 with h2 | h2
          · exact Or.inl h2
          · subst h2
            have hurl : pyEndsWith (BASE_URL ++ href) "tar.gz" = true := by
              simpa using h1
            exact Or.inr (candFilename_endsWith (href_endsWith_of_url hurl))
        · exact fun h2 => Or.inl h2
      · exact Or.inr h2

/-- Python indexing only ever returns elements of the list. -/
theorem pyIndex_mem {l : List String} {i : Int} {x : String}
    (h : pyIndex l i = some x) : x ∈ l := by
  simp only [pyIndex] at h
  split_ifs at h
  all_goals exact List.get?_mem h

/-- C10: a file written by sync is invisible to the other operations:
its name ends in `tar.gz`, hence does not end in `.txt`, so it never
appears in the catalog listing, in any search result, or as the target of
an ordinal-addressed view. -/
theorem c10_sync_output_invisible (net : Net) (links : List String)
    (s : Store) (fn : String)
    (hnew : fn ∈ storeNames (syncLoop net links s).store)
    (hold : fn ∉ storeNames s) :
    pyEndsWith fn "tar.gz" = true ∧
    pyEndsWith fn ".txt" = false ∧
    fn ∉ listTxt (syncLoop net links s).store ∧
    (∀ kw, fn ∉ foundIssues (syncLoop net links s).store kw) ∧
    (∀ i : Int, pyIndex (listTxt (syncLoop net links s).store) i ≠ some fn) := by
  have htar : pyEndsWith fn "tar.gz" = true := by
    rcases syncFold_new_name_tarGz net links ⟨s, [], []⟩ hnew with h | h
    · exact absurd h hold
    · exact h
  have htxt : pyEndsWith fn ".txt" = false := tarGz_not_txt htar
  have hnotlist : fn ∉ listTxt (syncLoop net links s).store := by
    intro hmem
    have hx := (List.mem_filter.mp hmem).2
    rw [htxt] at hx
    cases hx
  refine ⟨htar, htxt, hnotlist, ?_, ?_⟩
  · intro kw hmem
    exact hnotlist (List.mem_of_mem_filter hmem)
  · intro i hEq
    exact hnotlist (pyIndex_mem hEq)

theorem c10_sync_output_invisible_witness :
    ("a.tar.gz" ∈ storeNames (syncLoop netOk ["a.tar.gz"] []).store) ∧
    ("a.tar.gz" ∉ storeNames ([] : Store)) ∧
    (pyEndsWith "a.tar.gz" "tar.gz" = true ∧
      pyEndsWith "a.tar.gz" ".txt" = false ∧
      "a.tar.gz" ∉ listTxt (syncLoop netOk ["a.tar.gz"] []).store ∧
      (∀ kw, "a.tar.gz" ∉ foundIssues (syncLoop netOk ["a.tar.gz"] []).store kw) ∧
      (∀ i : Int,
        pyIndex (listTxt (syncLoop netOk ["a.tar.gz"] []).store) i ≠
          some "a.tar.gz")) :=
  ⟨by decide, by decide,
   c10_sync_output_invisible netOk ["a.tar.gz"] [] "a.tar.gz"
     (by decide) (by decide)⟩
